import Mathlib

/-!
Verification development for the KIS paper-trading journal engine.

The repository is a Python paper-trading system.  This file gives a shallow
embedding of its core: the portfolio ledger operations (`simulator.py`:
`cmd_buy`, `cmd_sell`, `cmd_reset`; `strategy_manager.py`: `execute_buy`,
`check_stop_loss_all`, `generate_comparison_report`), the RSI indicators
(`quant_engine.calc_rsi`, `strategies/value_investing._calc_rsi`) and the two
capital-allocation routines (`DualMomentumStrategy.get_allocation`,
`ValueInvestingStrategy.get_allocations`).

Modelling conventions:
* Python ints (prices, cash, share counts) are `Int`; Python floats (weights,
  returns, RSI values) are `ℚ` — all the properties proved here concern exact
  comparisons and bounds that hold for this arithmetic.
* Python dicts used as ledgers are association lists that respect the dict
  semantics: updating an existing key keeps its position, a new key is
  appended at the end.
* Fallible steps (missing quote, `ZeroDivisionError`) are `Option`/`Except`
  values; Python truthiness (`if not price`) treats `0` like a missing value,
  and so do the embeddings.
* Wall-clock timestamps, telegram notifications, journal strings and git
  pushes are I/O plumbing with no effect on the ledger; they are not modelled.
-/

namespace KisJournal

/-- One holding row of a portfolio ledger, as stored by `simulator.py`
(`{shares, avg_price, name}`; the optional `buy_date` timestamp added by
`strategy_manager.execute_buy` is I/O metadata and is not modelled). -/
structure Holding where
  shares : Int
  avg_price : Int
  name : String
  deriving Repr, DecidableEq

/-- One append-only trade record.  `reason` is `some "STOP_LOSS"` for
stop-loss liquidations and `none` for plain trades; the `date`, `profit` and
`profit_rate` journal fields are display-only and not modelled. -/
structure Trade where
  type : String
  ticker : String
  shares : Int
  price : Int
  amount : Int
  reason : Option String
  deriving Repr, DecidableEq

/-- A portfolio ledger: `{cash, holdings, trades}` as persisted per strategy. -/
structure Ledger where
  cash : Int
  holdings : List (String × Holding)
  trades : List Trade
  deriving Repr, DecidableEq

/-- Python dict read `p["holdings"].get(ticker)`: first (only) entry with the
given key. -/
def lookupH : List (String × Holding) → String → Option Holding
  | [], _ => none
  | e :: rest, t => if e.1 = t then some e.2 else lookupH rest t

/-- Python dict write `p["holdings"][ticker] = h`: an existing key keeps its
position in the dict, a fresh key is appended at the end. -/
def setH : List (String × Holding) → String → Holding → List (String × Holding)
  | [], t, h => [(t, h)]
  | e :: rest, t, h => if e.1 = t then (t, h) :: rest else e :: setH rest t h

/-- Failure modes of `simulator.cmd_buy`: the quote lookup returned nothing
(or `0`, which Python truthiness treats the same), or the cost check
`cost > p["cash"]` refused the order. -/
inductive BuyError where
  | priceUnavailable
  | insufficientCash
  deriving Repr, DecidableEq

/-- Failure modes of `simulator.cmd_sell`.  `divisionByZero` models the
`ZeroDivisionError` Python raises in `profit / (avg_price * shares) * 100`
when `avg_price * shares == 0`; it happens before any mutation. -/
inductive SellError where
  | insufficientShares
  | priceUnavailable
  | divisionByZero
  deriving Repr, DecidableEq

/-- Embedding of `simulator.cmd_buy` (lines 106–150).  `price?` is the gateway quote,
`name` the watchlist display name.  On any error the portfolio file is not
rewritten, so the ledger is unchanged. -/
def cmd_buy (p : Ledger) (ticker : String) (shares : Int) (price? : Option Int)
    (name : String) : Except BuyError Ledger :=
  match price? with
  | none => .error .priceUnavailable
  | some price =>
    if price = 0 then .error .priceUnavailable
    else
      let cost := price * shares
      if p.cash < cost then .error .insufficientCash
      else
        let existing := (lookupH p.holdings ticker).getD ⟨0, 0, name⟩
        let total_shares :=
          if 0 < existing.shares then existing.shares + shares else shares
        let avg_price :=
          if 0 < existing.shares then
            (existing.avg_price * existing.shares + cost).fdiv
              (existing.shares + shares)
          else price
        .ok { cash := p.cash - cost,
              holdings := setH p.holdings ticker
                ⟨total_shares, avg_price, name⟩,
              trades := p.trades ++
                [⟨"BUY", ticker, shares, price, cost, none⟩] }

/-- Embedding of `simulator.cmd_sell` (lines 153–193).  The holdings check runs before the
quote fetch; the `profit_r` division runs before any mutation, so every error
leaves the persisted ledger unchanged.  A full sell leaves the entry in the
holdings dict with `shares = 0`; `avg_price` and `name` are untouched. -/
def cmd_sell (p : Ledger) (ticker : String) (shares : Int)
    (price? : Option Int) : Except SellError Ledger :=
  match lookupH p.holdings ticker with
  | none => .error .insufficientShares
  | some h =>
    if h.shares < shares then .error .insufficientShares
    else
      match price? with
      | none => .error .priceUnavailable
      | some price =>
        if price = 0 then .error .priceUnavailable
        else
          if h.avg_price * shares = 0 then .error .divisionByZero
          else
            .ok { cash := p.cash + price * shares,
                  holdings := setH p.holdings ticker
                    { h with shares := h.shares - shares },
                  trades := p.trades ++
                    [⟨"SELL", ticker, shares, price, price * shares, none⟩] }

/-- Embedding of `simulator.cmd_reset`: reinitialize to the seed state. -/
def cmd_reset (seed : Int) : Ledger :=
  { cash := seed, holdings := [], trades := [] }

/-- The ledger persisted after a `cmd_buy` call: the new state on success,
the old one when the command was refused (the file is only rewritten on the
success path). -/
def buyOutcome (p : Ledger) (ticker : String) (shares : Int)
    (price? : Option Int) (name : String) : Ledger :=
  match cmd_buy p ticker shares price? name with
  | .ok q => q
  | .error _ => p

/-- The ledger persisted after a `cmd_sell` call. -/
def sellOutcome (p : Ledger) (ticker : String) (shares : Int)
    (price? : Option Int) : Ledger :=
  match cmd_sell p ticker shares price? with
  | .ok q => q
  | .error _ => p

/-- The stop-loss percentage of a holding against a current price,
`pct = (cur - avg_price) / avg_price * 100` (`check_stop_loss_all`,
`strategy_manager.py` line 232). -/
def stopPct (cur : Int) (h : Holding) : ℚ :=
  ((cur : ℚ) - (h.avg_price : ℚ)) / (h.avg_price : ℚ) * 100

/-- One pass of the stop-loss sweep over the holdings of one strategy
(`strategy_manager.check_stop_loss_all`, lines 224–251): returns the updated
holdings, the cash credited, and the SELL trades appended, in iteration
order.  A holding with `shares <= 0` or with no usable quote (`None` or `0`)
is skipped untouched.  A breached holding keeps its dict entry with its
shares zeroed; the appended trade records `shares` as read back from the
already-zeroed dict entry (the source zeroes `h["shares"]` before building
the trade record from the same aliased dict), while `amount` uses the revenue
computed beforehand. -/
def sweepHoldings (stop : ℚ) (px : String → Option Int) :
    List (String × Holding) → List (String × Holding) × Int × List Trade
  | [] => ([], 0, [])
  | (t, h) :: rest =>
    let r := sweepHoldings stop px rest
    if h.shares ≤ 0 then ((t, h) :: r.1, r.2)
    else
      match px t with
      | none => ((t, h) :: r.1, r.2)
      | some cur =>
        if cur = 0 then ((t, h) :: r.1, r.2)
        else if stopPct cur h ≤ stop then
          ((t, { h with shares := 0 }) :: r.1,
           cur * h.shares + r.2.1,
           ⟨"SELL", t, 0, cur, cur * h.shares, some "STOP_LOSS"⟩ :: r.2.2)
        else ((t, h) :: r.1, r.2)

/-- The stop-loss sweep applied to one strategy ledger with threshold
`stop` and quote source `px`. -/
def check_stop_loss (stop : ℚ) (px : String → Option Int) (p : Ledger) :
    Ledger :=
  let r := sweepHoldings stop px p.holdings
  { cash := p.cash + r.2.1, holdings := r.1, trades := p.trades ++ r.2.2 }

/-- Whether the sweep liquidates a given holdings entry: positive shares, a
usable quote, and loss percentage at or below the threshold. -/
def sweepTriggered (stop : ℚ) (px : String → Option Int)
    (e : String × Holding) : Bool :=
  0 < e.2.shares &&
    match px e.1 with
    | none => false
    | some cur => cur ≠ 0 && stopPct cur e.2 ≤ stop

/-- Cash credited by the sweep for one holdings entry. -/
def sweepRevenue (stop : ℚ) (px : String → Option Int)
    (e : String × Holding) : Int :=
  if sweepTriggered stop px e then ((px e.1).getD 0) * e.2.shares else 0

/-- The SELL trade the sweep appends for one holdings entry, if any. -/
def sweepTrade (stop : ℚ) (px : String → Option Int)
    (e : String × Holding) : Option Trade :=
  if sweepTriggered stop px e then
    some ⟨"SELL", e.1, 0, (px e.1).getD 0,
      ((px e.1).getD 0) * e.2.shares, some "STOP_LOSS"⟩
  else none

/-- How the sweep rewrites one holdings entry. -/
def sweepEntry (stop : ℚ) (px : String → Option Int)
    (e : String × Holding) : String × Holding :=
  if sweepTriggered stop px e then (e.1, { e.2 with shares := 0 }) else e

/-- One allocation row handed to `strategy_manager.execute_buy`:
ticker, display name, planned share count, and the resolved unit price
(`None` models the whole plan-price / market-data-cache / live-quote chain
coming up empty; `0` is treated as missing by the source's truthiness
checks). -/
structure ExecItem where
  ticker : String
  name : String
  shares : Int
  price : Option Int
  deriving Repr, DecidableEq

/-- Body of the `for a in allocations` loop of `strategy_manager.execute_buy`
(lines 144–206): skip non-positive planned shares and missing quotes; clamp
the share count to `cash // price` when the plan overshoots the remaining
cash (skipping if the clamp reaches zero); recompute the weighted-average
cost if the holding already exists; decrement cash and append a BUY trade. -/
def execBuyStep (p : Ledger) (a : ExecItem) : Ledger :=
  if a.shares ≤ 0 then p
  else
    match a.price with
    | none => p
    | some price =>
      if price = 0 then p
      else
        let planCost := price * a.shares
        let shares :=
          if p.cash < planCost then p.cash.fdiv price else a.shares
        let cost :=
          if p.cash < planCost then p.cash.fdiv price * price else planCost
        if shares ≤ 0 then p
        else
          let existing := (lookupH p.holdings a.ticker).getD
            ⟨0, price, a.name⟩
          let total_s :=
            if 0 < existing.shares then existing.shares + shares else shares
          let avg_p :=
            if 0 < existing.shares then
              (existing.avg_price * existing.shares + cost).fdiv
                (existing.shares + shares)
            else price
          { cash := p.cash - cost,
            holdings := setH p.holdings a.ticker ⟨total_s, avg_p, a.name⟩,
            trades := p.trades ++
              [⟨"BUY", a.ticker, shares, price, cost, none⟩] }

/-- Embedding of `strategy_manager.execute_buy`: fold the loop body over the allocation
list (the final `save_portfolio` persists the result unconditionally). -/
def execute_buy (p : Ledger) (items : List ExecItem) : Ledger :=
  items.foldl execBuyStep p

/-- A ledger mutation, as the claims enumerate them: a simulator buy or sell,
a coordinator batch buy, a stop-loss sweep, or a reset. -/
inductive Cmd where
  | buy (ticker : String) (shares : Int) (price? : Option Int) (name : String)
  | sell (ticker : String) (shares : Int) (price? : Option Int)
  | execBuy (items : List ExecItem)
  | stopLoss (stop : ℚ) (px : String → Option Int)
  | reset

/-- Apply one mutation to the persisted ledger; refused simulator commands
leave the file unwritten. -/
def applyCmd (seed : Int) (p : Ledger) : Cmd → Ledger
  | .buy t s pr nm => buyOutcome p t s pr nm
  | .sell t s pr => sellOutcome p t s pr
  | .execBuy items => execute_buy p items
  | .stopLoss stop px => check_stop_loss stop px p
  | .reset => cmd_reset seed

/-- Run a sequence of mutations from the freshly reset ledger. -/
def runCmds (seed : Int) (cmds : List Cmd) : Ledger :=
  cmds.foldl (applyCmd seed) (cmd_reset seed)

/-- Total cash spent on BUY trades recorded in a trade log. -/
def buySpent (ts : List Trade) : Int :=
  ((ts.filter (fun tr => tr.type == "BUY")).map (fun tr => tr.amount)).sum

/-- Total cash received on SELL trades recorded in a trade log. -/
def sellReceived (ts : List Trade) : Int :=
  ((ts.filter (fun tr => tr.type == "SELL")).map (fun tr => tr.amount)).sum

/-- Cost basis of the open holdings, `Σ avg_price * shares`. -/
def holdingsBasis (hs : List (String × Holding)) : Int :=
  (hs.map (fun e => e.2.avg_price * e.2.shares)).sum

/-- The conservation law the ledger actually maintains: cash equals the
cumulative net cash flow `seed - Σ BUY amounts + Σ SELL amounts`. -/
def cashFlowInv (seed : Int) (p : Ledger) : Prop :=
  p.cash = seed - buySpent p.trades + sellReceived p.trades

/-- The invariant as the specification words it: `cash + Σ(avg_price ×
shares)` equals the cumulative net cash flow.  (Stated from the spec, to be
compared against the code; see the counterexample below.) -/
def claimedLedgerInv (seed : Int) (p : Ledger) : Prop :=
  p.cash + holdingsBasis p.holdings =
    seed - buySpent p.trades + sellReceived p.trades

/-- The Python float literal `1e-10` used by `quant_engine.calc_rsi` as a
stand-in for a zero average loss. -/
def epsLoss : ℚ := 1 / 10000000000

/-- The daily-return window `quant_engine.calc_rsi` builds
(`rets = [(prices[i] - prices[i+1]) / prices[i+1] ...]`, newest-first input)
truncated to the first `period` entries. -/
def qeRsiWindow (prices : List ℚ) (period : Nat) : List ℚ :=
  (List.zipWith (fun a b => (a - b) / b) prices prices.tail).take period

/-- Embedding of `quant_engine.calc_rsi` (lines 39–49): `None` when fewer than
`period + 1` prices are given; gains are the positive returns of the window,
losses the negated negative ones; a missing loss average is replaced by
`1e-10` (not `0`) before forming `rs = avg_gain / avg_loss` and
`100 - 100 / (1 + rs)`. -/
def calc_rsi (prices : List ℚ) (period : Nat) : Option ℚ :=
  if prices.length < period + 1 then none
  else
    let rets := List.zipWith (fun a b => (a - b) / b) prices prices.tail
    let gains := (rets.take period).filter (fun r => 0 < r)
    let losses := ((rets.take period).filter (fun r => r < 0)).map (fun r => -r)
    let avg_gain := if gains.isEmpty then 0 else gains.sum / (period : ℚ)
    let avg_loss := if losses.isEmpty then epsLoss else losses.sum / (period : ℚ)
    let rs := avg_gain / avg_loss
    some (100 - 100 / (1 + rs))

/-- Python's `_mean` from `strategies/value_investing.py`: `0` on an empty
list, else `sum / len`. -/
def pyMean (l : List ℚ) : ℚ :=
  if l.isEmpty then 0 else l.sum / (l.length : ℚ)

/-- The delta window of `value_investing._calc_rsi`: adjacent differences
`recent[i] - recent[i-1]` over the last `period + 1` prices (oldest-first
input). -/
def viRsiDeltas (prices : List ℚ) (period : Nat) : List ℚ :=
  let recent := prices.drop (prices.length - (period + 1))
  List.zipWith (fun nxt prev => nxt - prev) recent.tail recent

/-- Embedding of `strategies/value_investing._calc_rsi` (lines 87–113): neutral `50` when
history is short; every delta contributes to both the gains list (`delta` or
`0`) and the losses list (`0` or `|delta|`); returns exactly `100` when the
average loss is `0`, else `100 - 100 / (1 + avg_gain / avg_loss)`. -/
def vi_calc_rsi (prices : List ℚ) (period : Nat) : ℚ :=
  if prices.length < period + 1 then 50
  else
    let deltas := viRsiDeltas prices period
    let gains := deltas.map (fun d => if 0 < d then d else 0)
    let losses := deltas.map (fun d => if 0 < d then 0 else |d|)
    let avg_gain := pyMean gains
    let avg_loss := pyMean losses
    if avg_loss = 0 then 100
    else 100 - 100 / (1 + avg_gain / avg_loss)

/-- Python `int()` applied to a nonnegative-or-negative rational: truncation
toward zero. -/
def pyIntTrunc (q : ℚ) : Int :=
  if 0 ≤ q then ⌊q⌋ else ⌈q⌉

/-- One analysis row consumed by `DualMomentumStrategy.get_allocation`
(`quant_engine.analyze` output): the `"-"` string sentinel an unavailable
volatility gets is modelled as `none`.  The display-only columns (`ma5`,
`m1`, `sharpe`, …) play no role in allocation and are omitted. -/
structure DMCand where
  ticker : String
  name : String
  price : Int
  vol : Option ℚ
  score : ℚ
  trend_ok : Bool
  deriving Repr, DecidableEq

/-- One allocation row produced by `DualMomentumStrategy.get_allocation`:
the source candidate plus the computed weight, `alloc_cash = int(cash * w)`,
`shares = alloc_cash // price` and `actual_cash = shares * price`. -/
structure DMAlloc where
  cand : DMCand
  weight : ℚ
  alloc_cash : Int
  shares : Int
  actual_cash : Int
  deriving Repr, DecidableEq

/-- The eligibility filter of `get_allocation` (line 161): trend filter
passed, positive momentum score, truncated to `TOP_N = 4`. -/
def dm_eligible (results : List DMCand) : List DMCand :=
  (results.filter (fun r => r.trend_ok && 0 < r.score)).take 4

/-- The volatility list of `get_allocation` (line 168): the `"-"` sentinel
is substituted by the neutral `20.0`. -/
def dm_vols (candidates : List DMCand) : List ℚ :=
  candidates.map (fun r => match r.vol with | some v => v | none => 20)

/-- The inverse-volatility weights of `get_allocation` (lines 168–171).
`none` models the `ZeroDivisionError` the source raises when a candidate
carries a numeric volatility `0.0` (in `1 / v`) or when the inverse
volatilities cancel to a zero total (in `iv / total_inv`). -/
def dm_weights (candidates : List DMCand) : Option (List ℚ) :=
  let vols := dm_vols candidates
  if vols.any (fun v => v = 0) then none
  else
    let inv_vols := vols.map (fun v => 1 / v)
    let total_inv := inv_vols.sum
    if total_inv = 0 then none
    else some (inv_vols.map (fun iv => iv / total_inv))

/-- Body of the allocation loop of `get_allocation` (lines 174–184):
`alloc_cash = int(cash * w)` (truncation toward zero),
`shares = alloc_cash // price` (floor division, which rounds downward also
for a negative price), `actual_cash = shares * price`. -/
def dmRow (cash : Int) (r : DMCand) (w : ℚ) : DMAlloc :=
  let alloc_cash := pyIntTrunc ((cash : ℚ) * w)
  let shares := alloc_cash.fdiv r.price
  { cand := r, weight := w, alloc_cash := alloc_cash,
    shares := shares, actual_cash := shares * r.price }

/-- Embedding of `DualMomentumStrategy.get_allocation` (`quant_engine.py` lines 158–186).
An empty candidate list yields `[]` (hold cash).  `none` models a
`ZeroDivisionError`: either inside the weight computation, or in
`alloc_cash // r["price"]` when a candidate's price is `0` — the source has
no guard on the price. -/
def get_allocation (results : List DMCand) (cash : Int) :
    Option (List DMAlloc) :=
  let candidates := dm_eligible results
  if candidates.isEmpty then some []
  else
    match dm_weights candidates with
    | none => none
    | some weights =>
      if candidates.any (fun r => r.price = 0) then none
      else some (List.zipWith (dmRow cash) candidates weights)

/-- The per-instrument weight cap of the value-investing allocator,
`MAX_WEIGHT_PER_TICKER = 0.40`. -/
def MAX_WEIGHT_PER_TICKER : ℚ := 2 / 5

/-- One candidate row consumed by
`ValueInvestingStrategy.get_allocations` (output of its `analyze`): ticker,
name, latest close and score.  The indicator columns (`m1`, `m3`, `rsi`,
`vol`, `sharpe`) and the `reason` string are copied through unchanged by the
allocator and are omitted here. -/
structure VICand where
  ticker : String
  name : String
  price : Int
  score : ℚ
  deriving Repr, DecidableEq

/-- One allocation row produced by `get_allocations`: planned share count
plus the realized weight percentage `actual_cost / cash * 100` (the source
rounds it to two decimals for display; the unrounded value is kept here, the
claims only bound it). -/
structure VIAlloc where
  ticker : String
  name : String
  shares : Int
  weight_pct : ℚ
  score : ℚ
  deriving Repr, DecidableEq

/-- The score-proportional raw weights of `get_allocations` (lines 367–374):
equal weights `1/n` when the total score is `0`, else `score / total`. -/
def vi_raw_weights (cands : List VICand) : List ℚ :=
  let total_score := (cands.map (fun c => c.score)).sum
  if total_score = 0 then List.replicate cands.length (1 / (cands.length : ℚ))
  else cands.map (fun c => c.score / total_score)

/-- The capped weights of `get_allocations` (line 378): each raw weight is
clipped to `MAX_WEIGHT_PER_TICKER`, and the clipped list is used as-is, with
no renormalization. -/
def vi_capped_weights (cands : List VICand) : List ℚ :=
  (vi_raw_weights cands).map (fun w => min w MAX_WEIGHT_PER_TICKER)

/-- Body of the allocation loop of `get_allocations` (lines 383–413):
`alloc_cash = cash * weight`; when the price is positive and the allocated
cash covers at least one share, `shares = int(alloc_cash // price)` with
`actual_cost = shares * price`, else zero of each; `actual_weight_pct` is the
realized weight `actual_cost / cash * 100`. -/
def viRow (cash : ℚ) (c : VICand) (w : ℚ) : VIAlloc :=
  let alloc_cash := cash * w
  let current_price := ((c.price : ℤ) : ℚ)
  let shares : Int :=
    if 0 < current_price ∧ current_price ≤ alloc_cash then
      ⌊alloc_cash / current_price⌋
    else 0
  let actual_cost : ℚ :=
    if 0 < current_price ∧ current_price ≤ alloc_cash then
      (⌊alloc_cash / current_price⌋ : ℚ) * current_price
    else 0
  let actual_weight_pct := if 0 < cash then actual_cost / cash * 100 else 0
  { ticker := c.ticker, name := c.name, shares := shares,
    weight_pct := actual_weight_pct, score := c.score }

/-- Embedding of `ValueInvestingStrategy.get_allocations` (lines 342–415): `[]` on an
empty candidate list or a non-positive cash budget; otherwise one entry per
candidate via the loop body `viRow`.  (The source also tracks a
`remaining_cash` local that it never uses; it is dropped here.) -/
def vi_get_allocations (cands : List VICand) (cash : ℚ) : List VIAlloc :=
  if cands.isEmpty || cash ≤ 0 then []
  else List.zipWith (viRow cash) cands (vi_capped_weights cands)

/-- Python's `round(x, 2)`, as used on the per-strategy return percentage.
(The source rounds an IEEE double half-to-even; this model rounds half-up,
which agrees everywhere except at exact half-cent boundaries and affects no
property proved here.) -/
def round2 (x : ℚ) : ℚ :=
  ((round (x * 100) : ℤ) : ℚ) / 100

/-- Per-strategy state as `generate_comparison_report` reads it: the
persisted ledger plus the strategy's `seed`. -/
structure StratState where
  cash : Int
  seed : Int
  holdings : List (String × Holding)
  deriving Repr

/-- The evaluation price `generate_comparison_report` uses for one holding
(lines 276–285): the market-data / live-quote chain collapses to `px`; a
missing or zero quote falls back to the holding's own `avg_price`. -/
def reportPrice (px : String → Option Int) (t : String) (h : Holding) : Int :=
  match px t with
  | some c => if c = 0 then h.avg_price else c
  | none => h.avg_price

/-- The `total_eval` of one strategy: evaluation value of its open holdings
(entries with positive shares). -/
def strat_eval (px : String → Option Int) (s : StratState) : Int :=
  ((s.holdings.filter (fun e => 0 < e.2.shares)).map
    (fun e => reportPrice px e.1 e.2 * e.2.shares)).sum

/-- The `total_cost` of one strategy: cost basis of its open holdings. -/
def strat_cost (s : StratState) : Int :=
  ((s.holdings.filter (fun e => 0 < e.2.shares)).map
    (fun e => e.2.avg_price * e.2.shares)).sum

/-- The per-strategy return percentage `generate_comparison_report` computes
and stores (line 298 and 319): `total_profit / total_cost * 100` when there
is an open cost basis, `0.0` otherwise, rounded to two decimals. -/
def strat_return_pct (px : String → Option Int) (s : StratState) : ℚ :=
  if 0 < strat_cost s then
    round2 ((((strat_eval px s - strat_cost s) : ℤ) : ℚ) /
      ((strat_cost s : ℤ) : ℚ) * 100)
  else 0

/-- One line of the comparison summary (`summary_data` values). -/
structure Summary where
  name : String
  return_pct : ℚ
  total_profit : Int
  total_assets : Int
  deriving Repr, DecidableEq

/-- The summary row built for one strategy. -/
def mkSummary (px : String → Option Int) (name : String) (s : StratState) :
    Summary :=
  { name := name,
    return_pct := strat_return_pct px s,
    total_profit := strat_eval px s - strat_cost s,
    total_assets := strat_eval px s + s.cash }

/-- Descending comparison on summaries, `b.return_pct ≤ a.return_pct`:
`a` may stay in front of `b` exactly when Python's
`sorted(..., key=return_pct, reverse=True)` would keep it there. -/
def summaryGE (a b : Summary) : Prop :=
  b.return_pct ≤ a.return_pct

instance : DecidableRel summaryGE := fun a b =>
  inferInstanceAs (Decidable (b.return_pct ≤ a.return_pct))

instance : IsTotal Summary summaryGE :=
  ⟨fun a b => le_total b.return_pct a.return_pct⟩

instance : IsTrans Summary summaryGE :=
  ⟨fun _ _ _ hab hbc => le_trans hbc hab⟩

/-- The strategy ranking of `generate_comparison_report` (line 329):
`sorted(summary_data.items(), key=return_pct, reverse=True)` — a stable
descending sort of the summaries, which insertion sort under `summaryGE`
realizes exactly. -/
def rankSummaries (l : List Summary) : List Summary :=
  l.insertionSort summaryGE

/-! Dictionary lemmas -/

theorem lookupH_setH_self (hs : List (String × Holding)) (t : String)
    (h : Holding) : lookupH (setH hs t h) t = some h := by
  induction hs with
  | nil => simp [setH, lookupH]
  | cons e rest ih =>
    by_cases he : e.1 = t
    · simp [setH, he, lookupH]
    · simp [setH, he, lookupH, ih]

theorem lookupH_setH_ne (hs : List (String × Holding)) (t u : String)
    (h : Holding) (hne : u ≠ t) :
    lookupH (setH hs t h) u = lookupH hs u := by
  induction hs with
  | nil => simp [setH, lookupH, Ne.symm hne]
  | cons e rest ih =>
    by_cases he : e.1 = t
    · subst he
      simp [setH, lookupH, Ne.symm hne]
    · simp [setH, he, lookupH, ih]

/-! Ledger buy and sell (claims C8, C9) -/

/-- C8: the ledger buy is refused with InsufficientCash exactly when
`shares × price` exceeds the available cash; a buy whose cost equals the cash
exactly succeeds and leaves `cash = 0`; every refusal leaves the persisted
ledger completely unchanged. -/
theorem buy_refusal_exact (p : Ledger) (t nm : String) (s pr : Int)
    (hpr : pr ≠ 0) :
    (cmd_buy p t s (some pr) nm = .error .insufficientCash ↔ p.cash < pr * s)
    ∧ (pr * s = p.cash →
        (∃ q, cmd_buy p t s (some pr) nm = .ok q) ∧
        (buyOutcome p t s (some pr) nm).cash = 0)
    ∧ (∀ e, cmd_buy p t s (some pr) nm = .error e →
        buyOutcome p t s (some pr) nm = p) := by
  refine ⟨?_, ?_, ?_⟩
  · by_cases hc : p.cash < pr * s
    · simp [cmd_buy, hpr, hc]
    · simp [cmd_buy, hpr, hc]
  · intro he
    have hc : ¬ p.cash < pr * s := by omega
    constructor
    · simp [cmd_buy, hpr, hc]
    · simp [buyOutcome, cmd_buy, hpr, hc]
      omega
  · intro e he
    simp [buyOutcome, he]

/-- Witness for `buy_refusal_exact` at a concrete ledger: cash 100, a buy of
10 shares at price 10 costs exactly the cash, succeeds, and zeroes the
cash. -/
theorem buy_refusal_exact_witness :
    ((10 : Int) ≠ 0) ∧ ((10 : Int) * 10 = (cmd_reset 100).cash) ∧
    ((∃ q, cmd_buy (cmd_reset 100) "A" 10 (some 10) "K" = .ok q) ∧
      (buyOutcome (cmd_reset 100) "A" 10 (some 10) "K").cash = 0) :=
  ⟨by decide, by decide,
    (buy_refusal_exact (cmd_reset 100) "A" "K" 10 10 (by decide)).2.1
      (by decide)⟩

/-- C9: selling `k ≤ held` shares (with a usable quote) succeeds, leaves the
remainder's `avg_price` (and `name`) unchanged, and credits `cash` with
`k × price`; selling more than the held shares is refused with
InsufficientShares and leaves the persisted ledger unchanged. -/
theorem sell_frame (p : Ledger) (t : String) (k pr : Int) (h : Holding)
    (hh : lookupH p.holdings t = some h) (hk : 0 < k) (hks : k ≤ h.shares)
    (hpr : pr ≠ 0) (havg : h.avg_price ≠ 0) :
    cmd_sell p t k (some pr) =
      .ok { cash := p.cash + pr * k,
            holdings := setH p.holdings t { h with shares := h.shares - k },
            trades := p.trades ++ [⟨"SELL", t, k, pr, pr * k, none⟩] }
    ∧ lookupH (sellOutcome p t k (some pr)).holdings t =
        some ⟨h.shares - k, h.avg_price, h.name⟩
    ∧ (sellOutcome p t k (some pr)).cash = p.cash + pr * k
    ∧ (∀ s2, h.shares < s2 →
        cmd_sell p t s2 (some pr) = .error .insufficientShares ∧
        sellOutcome p t s2 (some pr) = p) := by
  have hlt : ¬ h.shares < k := not_lt.mpr hks
  have hz : ¬ h.avg_price * k = 0 := by
    exact mul_ne_zero havg (by omega)
  have hok : cmd_sell p t k (some pr) =
      .ok { cash := p.cash + pr * k,
            holdings := setH p.holdings t { h with shares := h.shares - k },
            trades := p.trades ++ [⟨"SELL", t, k, pr, pr * k, none⟩] } := by
    simp [cmd_sell, hh, hlt, hpr, hz]
  refine ⟨hok, ?_, ?_, ?_⟩
  · simp [sellOutcome, hok, lookupH_setH_self]
  · simp [sellOutcome, hok]
  · intro s2 hs2
    have : cmd_sell p t s2 (some pr) = .error .insufficientShares := by
      simp [cmd_sell, hh, hs2]
    exact ⟨this, by simp [sellOutcome, this]⟩

/-- Witness for `sell_frame`: a ledger holding 10 shares of "A" at average
price 1000; selling 4 at price 1100 keeps the average at 1000 and credits
4400, while selling 11 is refused. -/
theorem sell_frame_witness :
    lookupH [("A", (⟨10, 1000, "A"⟩ : Holding))] "A" = some ⟨10, 1000, "A"⟩ ∧
    (lookupH (sellOutcome ⟨5000, [("A", ⟨10, 1000, "A"⟩)], []⟩ "A" 4
        (some 1100)).holdings "A" = some ⟨6, 1000, "A"⟩ ∧
      (sellOutcome ⟨5000, [("A", ⟨10, 1000, "A"⟩)], []⟩ "A" 4
        (some 1100)).cash = 5000 + 1100 * 4) :=
  ⟨by decide,
    (sell_frame ⟨5000, [("A", ⟨10, 1000, "A"⟩)], []⟩ "A" 4 1100
        ⟨10, 1000, "A"⟩ (by decide) (by decide) (by decide) (by decide)
        (by decide)).2.1,
    (sell_frame ⟨5000, [("A", ⟨10, 1000, "A"⟩)], []⟩ "A" 4 1100
        ⟨10, 1000, "A"⟩ (by decide) (by decide) (by decide) (by decide)
        (by decide)).2.2.1⟩

/-! Stop-loss sweep (claims C6, C10) -/

theorem sweepHoldings_spec (stop : ℚ) (px : String → Option Int)
    (hs : List (String × Holding)) :
    sweepHoldings stop px hs =
      (hs.map (sweepEntry stop px),
       (hs.map (sweepRevenue stop px)).sum,
       hs.filterMap (sweepTrade stop px)) := by
  induction hs with
  | nil => simp [sweepHoldings]
  | cons e rest ih =>
    obtain ⟨t, h⟩ := e
    by_cases h1 : h.shares ≤ 0
    · have hno : ¬ (0 : Int) < h.shares := not_lt.mpr h1
      have ht : sweepTriggered stop px (t, h) = false := by
        simp [sweepTriggered, hno]
      simp [sweepHoldings, h1, ih, sweepEntry, sweepRevenue, sweepTrade, ht]
    · have h1p : (0 : Int) < h.shares := not_le.mp h1
      cases hp : px t with
      | none =>
        have ht : sweepTriggered stop px (t, h) = false := by
          simp [sweepTriggered, hp]
        simp [sweepHoldings, h1, hp, ih, sweepEntry, sweepRevenue, sweepTrade,
          ht]
      | some cur =>
        by_cases hc : cur = 0
        · subst hc
          have ht : sweepTriggered stop px (t, h) = false := by
            simp [sweepTriggered, hp]
          simp [sweepHoldings, h1, hp, ih, sweepEntry, sweepRevenue,
            sweepTrade, ht]
        · by_cases hs2 : stopPct cur h ≤ stop
          · have ht : sweepTriggered stop px (t, h) = true := by
              simp [sweepTriggered, hp, hc, hs2, h1p]
            simp [sweepHoldings, h1, hp, hc, hs2, ih, sweepEntry,
              sweepRevenue, sweepTrade, ht]
          · have ht : sweepTriggered stop px (t, h) = false := by
              simp [sweepTriggered, hp, hc, hs2]
            simp [sweepHoldings, h1, hp, hc, hs2, ih, sweepEntry,
              sweepRevenue, sweepTrade, ht]

/-- C6: the stop-loss sweep acts on every holding independently; a holding
with positive shares and a usable quote is fully liquidated (shares zeroed,
`avg_price`/`name` kept, cash credited with `shares × current`, one SELL
trade with reason STOP_LOSS appended) exactly when
`(current − avg)/avg × 100 ≤ τ`; a holding with no quote is left completely
unchanged and generates no trade and no cash movement. -/
theorem stop_loss_sweep_exact (stop : ℚ) (px : String → Option Int)
    (p : Ledger) :
    ((check_stop_loss stop px p).holdings =
        p.holdings.map (sweepEntry stop px)
      ∧ (check_stop_loss stop px p).cash =
        p.cash + (p.holdings.map (sweepRevenue stop px)).sum
      ∧ (check_stop_loss stop px p).trades =
        p.trades ++ p.holdings.filterMap (sweepTrade stop px))
    ∧ (∀ t h cur, (0 : Int) < h.shares → px t = some cur → cur ≠ 0 →
        (sweepTriggered stop px (t, h) = true ↔ stopPct cur h ≤ stop)
        ∧ (stopPct cur h ≤ stop →
            sweepEntry stop px (t, h) = (t, ⟨0, h.avg_price, h.name⟩)
            ∧ sweepRevenue stop px (t, h) = cur * h.shares
            ∧ sweepTrade stop px (t, h) =
                some ⟨"SELL", t, 0, cur, cur * h.shares, some "STOP_LOSS"⟩)
        ∧ (stop < stopPct cur h →
            sweepEntry stop px (t, h) = (t, h)
            ∧ sweepRevenue stop px (t, h) = 0
            ∧ sweepTrade stop px (t, h) = none))
    ∧ (∀ t h, px t = none →
        sweepEntry stop px (t, h) = (t, h)
        ∧ sweepRevenue stop px (t, h) = 0
        ∧ sweepTrade stop px (t, h) = none) := by
  refine ⟨?_, ?_, ?_⟩
  · have hsw := sweepHoldings_spec stop px p.holdings
    refine ⟨?_, ?_, ?_⟩ <;> simp [check_stop_loss, hsw]
  · intro t h cur hsh hp hc
    have hiff : sweepTriggered stop px (t, h) = true ↔ stopPct cur h ≤ stop := by
      simp [sweepTriggered, hp, hc, hsh]
    refine ⟨hiff, ?_, ?_⟩
    · intro hle
      have ht : sweepTriggered stop px (t, h) = true := hiff.mpr hle
      refine ⟨?_, ?_, ?_⟩ <;> simp [sweepEntry, sweepRevenue, sweepTrade, ht, hp]
    · intro hgt
      have ht : sweepTriggered stop px (t, h) = false := by
        rcases Bool.eq_false_or_eq_true (sweepTriggered stop px (t, h)) with
          hf | htr
        · exact absurd (hiff.mp hf) (not_le.mpr hgt)
        · exact htr
      refine ⟨?_, ?_, ?_⟩ <;> simp [sweepEntry, sweepRevenue, sweepTrade, ht]
  · intro t h hp
    have ht : sweepTriggered stop px (t, h) = false := by
      simp [sweepTriggered, hp]
    refine ⟨?_, ?_, ?_⟩ <;> simp [sweepEntry, sweepRevenue, sweepTrade, ht]

/-- Witness for `stop_loss_sweep_exact`: with threshold −7, a holding of 10
shares at average price 1000 quoted at 920 (−8%) is liquidated: entry zeroed,
revenue 9200, SELL/STOP_LOSS trade recorded. -/
theorem stop_loss_sweep_exact_witness :
    ((0 : Int) < 10 ∧ (920 : Int) ≠ 0) ∧
    (sweepEntry (-7) (fun _ => some 920) ("A", ⟨10, 1000, "A"⟩) =
        ("A", ⟨0, 1000, "A"⟩)
      ∧ sweepRevenue (-7) (fun _ => some 920) ("A", ⟨10, 1000, "A"⟩) =
        920 * 10
      ∧ sweepTrade (-7) (fun _ => some 920) ("A", ⟨10, 1000, "A"⟩) =
        some ⟨"SELL", "A", 0, 920, 920 * 10, some "STOP_LOSS"⟩) :=
  ⟨⟨by decide, by decide⟩,
    ((stop_loss_sweep_exact (-7) (fun _ => some 920)
        ⟨0, [], []⟩).2.1 "A" ⟨10, 1000, "A"⟩ 920 (by decide) rfl
        (by decide)).2.1 (by norm_num [stopPct])⟩

/-- C10: a full liquidation never removes the ticker from the holdings
mapping: a simulator sell of all shares keeps the entry with `shares = 0`
and its `avg_price` and `name` intact (other entries untouched), and the
stop-loss sweep rewrites a breached entry to the same zero-share form. -/
theorem full_liquidation_keeps_entry :
    (∀ (p : Ledger) (t : String) (pr : Int) (h : Holding),
      lookupH p.holdings t = some h → (0 : Int) < h.shares → pr ≠ 0 →
      h.avg_price ≠ 0 →
      cmd_sell p t h.shares (some pr) =
        .ok { cash := p.cash + pr * h.shares,
              holdings := setH p.holdings t ⟨0, h.avg_price, h.name⟩,
              trades := p.trades ++
                [⟨"SELL", t, h.shares, pr, pr * h.shares, none⟩] }
      ∧ lookupH (sellOutcome p t h.shares (some pr)).holdings t =
          some ⟨0, h.avg_price, h.name⟩
      ∧ (∀ u, u ≠ t →
          lookupH (sellOutcome p t h.shares (some pr)).holdings u =
            lookupH p.holdings u))
    ∧ (∀ (stop : ℚ) (px : String → Option Int) (p : Ledger),
      (check_stop_loss stop px p).holdings =
        p.holdings.map (sweepEntry stop px)
      ∧ (∀ e, sweepTriggered stop px e = true →
          sweepEntry stop px e = (e.1, ⟨0, e.2.avg_price, e.2.name⟩))) := by
  constructor
  · intro p t pr h hh hsh hpr havg
    have hlt : ¬ h.shares < h.shares := lt_irrefl _
    have hz : ¬ h.avg_price * h.shares = 0 :=
      mul_ne_zero havg (by omega)
    have hok : cmd_sell p t h.shares (some pr) =
        .ok { cash := p.cash + pr * h.shares,
              holdings := setH p.holdings t ⟨0, h.avg_price, h.name⟩,
              trades := p.trades ++
                [⟨"SELL", t, h.shares, pr, pr * h.shares, none⟩] } := by
      simp [cmd_sell, hh, hlt, hpr, hz]
    refine ⟨hok, ?_, ?_⟩
    · simp [sellOutcome, hok, lookupH_setH_self]
    · intro u hu
      simp [sellOutcome, hok, lookupH_setH_ne _ _ _ _ hu]
  · intro stop px p
    constructor
    · have hsw := sweepHoldings_spec stop px p.holdings
      simp [check_stop_loss, hsw]
    · intro e ht
      simp [sweepEntry, ht]

/-- Witness for `full_liquidation_keeps_entry`: selling all 10 shares of "A"
keeps the `("A", shares 0, avg 1000)` entry and leaves the other ticker's
entry alone. -/
theorem full_liquidation_keeps_entry_witness :
    lookupH (sellOutcome
        ⟨0, [("A", ⟨10, 1000, "A"⟩), ("B", ⟨5, 700, "B"⟩)], []⟩ "A" 10
        (some 900)).holdings "A" = some ⟨0, 1000, "A"⟩ ∧
    lookupH (sellOutcome
        ⟨0, [("A", ⟨10, 1000, "A"⟩), ("B", ⟨5, 700, "B"⟩)], []⟩ "A" 10
        (some 900)).holdings "B" =
      lookupH [("A", (⟨10, 1000, "A"⟩ : Holding)), ("B", ⟨5, 700, "B"⟩)] "B" :=
  ⟨(full_liquidation_keeps_entry.1
      ⟨0, [("A", ⟨10, 1000, "A"⟩), ("B", ⟨5, 700, "B"⟩)], []⟩ "A" 900
      ⟨10, 1000, "A"⟩ (by decide) (by decide) (by decide) (by decide)).2.1,
    (full_liquidation_keeps_entry.1
      ⟨0, [("A", ⟨10, 1000, "A"⟩), ("B", ⟨5, 700, "B"⟩)], []⟩ "A" 900
      ⟨10, 1000, "A"⟩ (by decide) (by decide) (by decide) (by decide)).2.2
      "B" (by decide)⟩

/-! Cash conservation (claim C1) -/

theorem buySpent_append (a b : List Trade) :
    buySpent (a ++ b) = buySpent a + buySpent b := by
  simp [buySpent, List.filter_append]

theorem sellReceived_append (a b : List Trade) :
    sellReceived (a ++ b) = sellReceived a + sellReceived b := by
  simp [sellReceived, List.filter_append]

theorem buySpent_buySingle (tk : String) (sh prc am : Int) (r : Option String) :
    buySpent [⟨"BUY", tk, sh, prc, am, r⟩] = am := by
  simp [buySpent]

theorem sellReceived_buySingle (tk : String) (sh prc am : Int)
    (r : Option String) : sellReceived [⟨"BUY", tk, sh, prc, am, r⟩] = 0 := by
  simp [sellReceived]

theorem buySpent_sellSingle (tk : String) (sh prc am : Int)
    (r : Option String) : buySpent [⟨"SELL", tk, sh, prc, am, r⟩] = 0 := by
  simp [buySpent]

theorem sellReceived_sellSingle (tk : String) (sh prc am : Int)
    (r : Option String) : sellReceived [⟨"SELL", tk, sh, prc, am, r⟩] = am := by
  simp [sellReceived]

theorem cashFlowInv_buyRecord (seed : Int) (p : Ledger)
    (hs : List (String × Holding)) (tk : String) (sh prc amt : Int)
    (hp : cashFlowInv seed p) :
    cashFlowInv seed
      ⟨p.cash - amt, hs, p.trades ++ [⟨"BUY", tk, sh, prc, amt, none⟩]⟩ := by
  unfold cashFlowInv at hp ⊢
  simp only [buySpent_append, sellReceived_append, buySpent_buySingle,
    sellReceived_buySingle]
  omega

theorem cashFlowInv_sellRecord (seed : Int) (p : Ledger)
    (hs : List (String × Holding)) (tk : String) (sh prc amt : Int)
    (r : Option String) (hp : cashFlowInv seed p) :
    cashFlowInv seed
      ⟨p.cash + amt, hs, p.trades ++ [⟨"SELL", tk, sh, prc, amt, r⟩]⟩ := by
  unfold cashFlowInv at hp ⊢
  simp only [buySpent_append, sellReceived_append, buySpent_sellSingle,
    sellReceived_sellSingle]
  omega

theorem cmd_buy_ok_spec (p : Ledger) (t nm : String) (s : Int)
    (pr? : Option Int) (q : Ledger) (hq : cmd_buy p t s pr? nm = .ok q) :
    ∃ pr, pr? = some pr ∧ q.cash = p.cash - pr * s ∧
      q.trades = p.trades ++ [⟨"BUY", t, s, pr, pr * s, none⟩] := by
  cases pr? with
  | none => simp [cmd_buy] at hq
  | some pr =>
    refine ⟨pr, rfl, ?_⟩
    by_cases h0 : pr = 0
    · simp [cmd_buy, h0] at hq
    · by_cases hc : p.cash < pr * s
      · simp [cmd_buy, h0, hc] at hq
      · simp [cmd_buy, h0, hc] at hq
        exact ⟨by simp [← hq], by simp [← hq]⟩

theorem cmd_sell_ok_spec (p : Ledger) (t : String) (s : Int)
    (pr? : Option Int) (q : Ledger) (hq : cmd_sell p t s pr? = .ok q) :
    ∃ pr, pr? = some pr ∧ q.cash = p.cash + pr * s ∧
      q.trades = p.trades ++ [⟨"SELL", t, s, pr, pr * s, none⟩] := by
  cases hh : lookupH p.holdings t with
  | none => simp [cmd_sell, hh] at hq
  | some h =>
    by_cases hlt : h.shares < s
    · simp [cmd_sell, hh, hlt] at hq
    · cases pr? with
      | none => simp [cmd_sell, hh, hlt] at hq
      | some pr =>
        refine ⟨pr, rfl, ?_⟩
        by_cases h0 : pr = 0
        · simp [cmd_sell, hh, hlt, h0] at hq
        · by_cases hz : h.avg_price * s = 0
          · simp [cmd_sell, hh, hlt, h0, hz] at hq
          · simp [cmd_sell, hh, hlt, h0, hz] at hq
            exact ⟨by simp [← hq], by simp [← hq]⟩

theorem cashFlowInv_buyOutcome (seed : Int) (p : Ledger) (t nm : String)
    (s : Int) (pr? : Option Int) (hp : cashFlowInv seed p) :
    cashFlowInv seed (buyOutcome p t s pr? nm) := by
  unfold buyOutcome
  cases hq : cmd_buy p t s pr? nm with
  | error e => exact hp
  | ok q =>
    obtain ⟨pr, -, hcash, htr⟩ := cmd_buy_ok_spec p t nm s pr? q hq
    unfold cashFlowInv
    rw [hcash, htr, buySpent_append, sellReceived_append,
      buySpent_buySingle, sellReceived_buySingle]
    unfold cashFlowInv at hp
    omega

theorem cashFlowInv_sellOutcome (seed : Int) (p : Ledger) (t : String)
    (s : Int) (pr? : Option Int) (hp : cashFlowInv seed p) :
    cashFlowInv seed (sellOutcome p t s pr?) := by
  unfold sellOutcome
  cases hq : cmd_sell p t s pr? with
  | error e => exact hp
  | ok q =>
    obtain ⟨pr, -, hcash, htr⟩ := cmd_sell_ok_spec p t s pr? q hq
    unfold cashFlowInv
    rw [hcash, htr, buySpent_append, sellReceived_append,
      buySpent_sellSingle, sellReceived_sellSingle]
    unfold cashFlowInv at hp
    omega

theorem cashFlowInv_execBuyStep (seed : Int) (p : Ledger) (a : ExecItem)
    (hp : cashFlowInv seed p) : cashFlowInv seed (execBuyStep p a) := by
  unfold execBuyStep
  by_cases h1 : a.shares ≤ 0
  · simpa [h1] using hp
  · cases hpr : a.price with
    | none => simpa [h1, hpr] using hp
    | some pr =>
      by_cases h0 : pr = 0
      · simpa [h1, hpr, h0] using hp
      · by_cases hsh :
          (if p.cash < pr * a.shares then p.cash.fdiv pr else a.shares) ≤ 0
        · simpa [h1, hpr, h0, hsh] using hp
        · simp only [if_neg h1, if_neg h0, if_neg hsh]
          exact cashFlowInv_buyRecord seed p _ a.ticker _ pr _ hp

theorem cashFlowInv_execute_buy (seed : Int) (p : Ledger)
    (items : List ExecItem) (hp : cashFlowInv seed p) :
    cashFlowInv seed (execute_buy p items) := by
  unfold execute_buy
  induction items generalizing p with
  | nil => exact hp
  | cons a rest ih =>
    exact ih (execBuyStep p a) (cashFlowInv_execBuyStep seed p a hp)

theorem sweep_trades_sum (stop : ℚ) (px : String → Option Int)
    (hs : List (String × Holding)) :
    buySpent (hs.filterMap (sweepTrade stop px)) = 0 ∧
    sellReceived (hs.filterMap (sweepTrade stop px)) =
      (hs.map (sweepRevenue stop px)).sum := by
  induction hs with
  | nil => simp [buySpent, sellReceived]
  | cons e rest ih =>
    by_cases ht : sweepTriggered stop px e
    · simpa [sweepTrade, sweepRevenue, ht, buySpent, sellReceived] using ih
    · simpa [sweepTrade, sweepRevenue, ht] using ih

theorem cashFlowInv_check_stop_loss (seed : Int) (stop : ℚ)
    (px : String → Option Int) (p : Ledger) (hp : cashFlowInv seed p) :
    cashFlowInv seed (check_stop_loss stop px p) := by
  have hsw := sweepHoldings_spec stop px p.holdings
  have hsum := sweep_trades_sum stop px p.holdings
  unfold cashFlowInv at hp ⊢
  simp only [check_stop_loss, hsw, buySpent_append, sellReceived_append,
    hsum.1, hsum.2]
  omega

theorem cashFlowInv_applyCmd (seed : Int) (p : Ledger) (c : Cmd)
    (hp : cashFlowInv seed p) : cashFlowInv seed (applyCmd seed p c) := by
  cases c with
  | buy t s pr nm => exact cashFlowInv_buyOutcome seed p t nm s pr hp
  | sell t s pr => exact cashFlowInv_sellOutcome seed p t s pr hp
  | execBuy items => exact cashFlowInv_execute_buy seed p items hp
  | stopLoss stop px => exact cashFlowInv_check_stop_loss seed stop px p hp
  | reset => simp [applyCmd, cashFlowInv, cmd_reset, buySpent, sellReceived]

/-- C1 (counterexample to the claim as stated): after a single buy of one
share at price 10 from seed 100, `cash + Σ(avg_price × shares)` is 100 while
the cumulative net cash flow `seed − buys + sells` is 90, so the claimed
invariant fails at the very first buy. -/
theorem claimed_ledger_invariant_cex :
    ¬ claimedLedgerInv 100 (runCmds 100 [.buy "A" 1 (some 10) "KODEX"]) := by
  simp only [claimedLedgerInv]
  decide

/-- C1 (amended): after every sequence of ledger mutations (buys, sells,
coordinator batch buys, stop-loss sweeps, resets) starting from the reset
state, `cash` alone equals the cumulative net cash flow
`seed − Σ BUY amounts + Σ SELL amounts`; and every successful buy decrements
cash by exactly `shares × price`. -/
theorem cash_conservation :
    (∀ (seed : Int) (cmds : List Cmd), cashFlowInv seed (runCmds seed cmds))
    ∧ (∀ (p : Ledger) (t : String) (s pr : Int) (nm : String) (q : Ledger),
        cmd_buy p t s (some pr) nm = .ok q → q.cash = p.cash - pr * s) := by
  constructor
  · intro seed cmds
    have h0 : cashFlowInv seed (cmd_reset seed) := by
      simp [cashFlowInv, cmd_reset, buySpent, sellReceived]
    unfold runCmds
    generalize cmd_reset seed = p0 at h0
    induction cmds generalizing p0 with
    | nil => exact h0
    | cons c rest ih =>
      exact ih (applyCmd seed p0 c) (cashFlowInv_applyCmd seed p0 c h0)
  · intro p t s pr nm q hq
    obtain ⟨pr2, hpr2, hcash, -⟩ := cmd_buy_ok_spec p t nm s (some pr) q hq
    cases hpr2
    exact hcash

/-- Witness for `cash_conservation`: the concrete successful buy of one
share at price 10 from the reset ledger ends with cash `100 − 10`. -/
theorem cash_conservation_witness :
    cashFlowInv 100 (runCmds 100 [.buy "A" 1 (some 10) "KODEX"]) ∧
    ∃ q, cmd_buy (cmd_reset 100) "A" 1 (some 10) "KODEX" = .ok q ∧
      q.cash = (cmd_reset 100).cash - 10 * 1 :=
  ⟨cash_conservation.1 100 [.buy "A" 1 (some 10) "KODEX"],
    ⟨_, rfl, cash_conservation.2 (cmd_reset 100) "A" 1 10 "KODEX" _ rfl⟩⟩

/-! RSI (claim C3) -/

theorem rsi_formula_bounds (a b : ℚ) (ha : 0 ≤ a) (hb : 0 < b) :
    0 ≤ 100 - 100 / (1 + a / b) ∧ 100 - 100 / (1 + a / b) < 100 := by
  have hrs : 0 ≤ a / b := div_nonneg ha hb.le
  have h1 : (0 : ℚ) < 1 + a / b := by linarith
  constructor
  · have hle : 100 / (1 + a / b) ≤ 100 :=
      div_le_self (by norm_num) (by linarith)
    linarith
  · have hpos : 0 < 100 / (1 + a / b) := div_pos (by norm_num) h1
    linarith

theorem pyMean_nonneg (l : List ℚ) (h : ∀ x ∈ l, 0 ≤ x) : 0 ≤ pyMean l := by
  unfold pyMean
  split
  · exact le_refl 0
  · exact div_nonneg (List.sum_nonneg h) (by positivity)

/-- C3 (counterexample to the claim as stated): a constant price series has
every delta of the lookback window non-negative, yet `quant_engine.calc_rsi`
returns `0`, not `100` — its `1e-10` stand-in keeps the average loss nonzero,
so the all-non-negative branch never produces exactly 100. -/
theorem rsi_hundred_cex :
    (∀ d ∈ qeRsiWindow (List.replicate 15 (1 : ℚ)) 14, 0 ≤ d)
    ∧ calc_rsi (List.replicate 15 (1 : ℚ)) 14 = some 0
    ∧ (0 : ℚ) ≠ 100 := by
  refine ⟨?_, ?_, by norm_num⟩
  · norm_num [qeRsiWindow, List.replicate]
  · norm_num [calc_rsi, epsLoss, List.replicate]

/-- C3 (amended): the value-investing `_calc_rsi` returns exactly 100 when
all deltas of its lookback window are non-negative and a value in `[0, 100)`
otherwise; `quant_engine.calc_rsi`, which substitutes `1e-10` for a zero
average loss, always returns a value in `[0, 100)` and never exactly 100. -/
theorem rsi_bounds (prices : List ℚ) (period : Nat) (hp : 0 < period)
    (hl : period + 1 ≤ prices.length) :
    ((∀ d ∈ viRsiDeltas prices period, 0 ≤ d) →
        vi_calc_rsi prices period = 100)
    ∧ ((∃ d ∈ viRsiDeltas prices period, d < 0) →
        0 ≤ vi_calc_rsi prices period ∧ vi_calc_rsi prices period < 100)
    ∧ (∀ r, calc_rsi prices period = some r → 0 ≤ r ∧ r < 100) := by
  have hnl : ¬ prices.length < period + 1 := not_lt.mpr hl
  refine ⟨?_, ?_, ?_⟩
  · intro hall
    have hz : ∀ x ∈ (viRsiDeltas prices period).map
        (fun d => if 0 < d then 0 else |d|), x = (0 : ℚ) := by
      intro x hx
      obtain ⟨d, hd, rfl⟩ := List.mem_map.mp hx
      by_cases h : 0 < d
      · simp [h]
      · have hd0 : d = 0 := le_antisymm (not_lt.mp h) (hall d hd)
        simp [h, hd0]
    have hm : pyMean ((viRsiDeltas prices period).map
        (fun d => if 0 < d then 0 else |d|)) = 0 := by
      unfold pyMean
      split
      · rfl
      · rw [List.sum_eq_zero hz]
        simp
    simp only [vi_calc_rsi, if_neg hnl]
    rw [if_pos hm]
  · rintro ⟨d0, hd0, hd0n⟩
    have hnp : ¬ 0 < d0 := not_lt.mpr hd0n.le
    have hmem : |d0| ∈ (viRsiDeltas prices period).map
        (fun d => if 0 < d then 0 else |d|) := by
      have := List.mem_map_of_mem (fun d => if 0 < d then 0 else |d|) hd0
      simpa [hnp] using this
    have hnn : ∀ x ∈ (viRsiDeltas prices period).map
        (fun d => if 0 < d then 0 else |d|), 0 ≤ x := by
      intro x hx
      obtain ⟨d, -, rfl⟩ := List.mem_map.mp hx
      by_cases h : 0 < d
      · simp [h]
      · simp [h, abs_nonneg]
    have hsum : 0 < ((viRsiDeltas prices period).map
        (fun d => if 0 < d then 0 else |d|)).sum :=
      lt_of_lt_of_le (abs_pos.mpr (ne_of_lt hd0n))
        (List.single_le_sum hnn _ hmem)
    have hne : (viRsiDeltas prices period).map
        (fun d => if 0 < d then 0 else |d|) ≠ [] :=
      List.ne_nil_of_mem hmem
    have hml : 0 < pyMean ((viRsiDeltas prices period).map
        (fun d => if 0 < d then 0 else |d|)) := by
      unfold pyMean
      rw [if_neg (by simpa [List.isEmpty_iff] using hne)]
      refine div_pos hsum ?_
      have := List.length_pos.mpr hne
      positivity
    have hmg : 0 ≤ pyMean ((viRsiDeltas prices period).map
        (fun d => if 0 < d then d else 0)) := by
      refine pyMean_nonneg _ ?_
      intro x hx
      obtain ⟨d, -, rfl⟩ := List.mem_map.mp hx
      by_cases h : 0 < d
      · simp [h, h.le]
      · simp [h]
    simp only [vi_calc_rsi, if_neg hnl]
    rw [if_neg (ne_of_gt hml)]
    exact rsi_formula_bounds _ _ hmg hml
  · intro r hr
    simp only [calc_rsi, if_neg hnl, Option.some.injEq] at hr
    subst hr
    set rets := List.zipWith (fun a b => (a - b) / b) prices prices.tail
      with hrets
    have hgain : 0 ≤ (if ((rets.take period).filter
        (fun r2 => 0 < r2)).isEmpty then (0 : ℚ)
        else ((rets.take period).filter (fun r2 => 0 < r2)).sum /
          (period : ℚ)) := by
      split
      · exact le_refl 0
      · refine div_nonneg (List.sum_nonneg ?_) (by positivity)
        intro x hx
        have := List.of_mem_filter hx
        exact (of_decide_eq_true this).le
    have hloss : 0 < (if (((rets.take period).filter
        (fun r2 => r2 < 0)).map (fun r2 => -r2)).isEmpty then epsLoss
        else (((rets.take period).filter (fun r2 => r2 < 0)).map
          (fun r2 => -r2)).sum / (period : ℚ)) := by
      split
      · norm_num [epsLoss]
      · rename_i hni
        refine div_pos (List.sum_pos _ ?_ ?_) ?_
        · intro x hx
          obtain ⟨y, hy, rfl⟩ := List.mem_map.mp hx
          have := List.of_mem_filter hy
          have hyn : y < 0 := of_decide_eq_true this
          linarith
        · intro hcon
          rw [hcon] at hni
          simp at hni
        · have hpq : (0 : ℚ) < (period : ℚ) := by exact_mod_cast hp
          exact hpq
    exact rsi_formula_bounds _ _ hgain hloss

/-- Witness for `rsi_bounds`: the strictly rising series `[1, 2]` with
period 1 has its only delta non-negative, and the value-investing RSI is
exactly 100 there. -/
theorem rsi_bounds_witness :
    (0 < 1 ∧ 1 + 1 ≤ ([(1 : ℚ), 2]).length)
    ∧ vi_calc_rsi [(1 : ℚ), 2] 1 = 100 :=
  ⟨⟨Nat.one_pos, by decide⟩,
    (rsi_bounds [(1 : ℚ), 2] 1 Nat.one_pos (by decide)).1
      (by norm_num [viRsiDeltas])⟩

/-! Allocation engines (claims C4, C5, C7) -/

theorem exists_of_mem_zipWith {α β γ : Type} {f : α → β → γ} :
    ∀ {l1 : List α} {l2 : List β} {c : γ}, c ∈ List.zipWith f l1 l2 →
      ∃ a, a ∈ l1 ∧ ∃ b, b ∈ l2 ∧ c = f a b := by
  intro l1
  induction l1 with
  | nil => intro l2 c h; simp at h
  | cons x xs ih =>
    intro l2 c h
    cases l2 with
    | nil => simp at h
    | cons y ys =>
      rw [List.zipWith_cons_cons] at h
      rcases List.mem_cons.mp h with h1 | h2
      · exact ⟨x, List.mem_cons_self _ _, y, List.mem_cons_self _ _, h1⟩
      · obtain ⟨a, ha, b, hb, rfl⟩ := ih h2
        exact ⟨a, List.mem_cons_of_mem _ ha, b, List.mem_cons_of_mem _ hb,
          rfl⟩

theorem sum_map_div (l : List ℚ) (T : ℚ) :
    (l.map (fun x => x / T)).sum = l.sum / T := by
  have h := List.sum_map_mul_right l id T⁻¹
  simpa [div_eq_mul_inv] using h

theorem pyIntTrunc_le (q : ℚ) (h : 0 ≤ q) : (pyIntTrunc q : ℚ) ≤ q := by
  rw [pyIntTrunc, if_pos h]
  exact Int.floor_le q

theorem dm_weights_spec (cands : List DMCand) (hne : cands ≠ [])
    (hv : ∀ v ∈ dm_vols cands, 0 < v) :
    ∃ ws, dm_weights cands = some ws ∧ ws.sum = 1 ∧ (∀ w ∈ ws, 0 ≤ w)
      ∧ ws.length = cands.length := by
  have h1 : ((dm_vols cands).any fun v => v = 0) = false := by
    rw [List.any_eq_false]
    intro v hvv
    simpa using (hv v hvv).ne'
  have hinv : ∀ x ∈ (dm_vols cands).map (fun v => 1 / v), 0 < x := by
    intro x hx
    obtain ⟨v, hvv, rfl⟩ := List.mem_map.mp hx
    exact one_div_pos.mpr (hv v hvv)
  have hvne : dm_vols cands ≠ [] := by
    simpa [dm_vols] using hne
  have hine : (dm_vols cands).map (fun v => 1 / v) ≠ [] := by
    simpa using hvne
  have htot : 0 < ((dm_vols cands).map (fun v => 1 / v)).sum :=
    List.sum_pos _ hinv hine
  refine ⟨((dm_vols cands).map (fun v => 1 / v)).map
      (fun iv => iv / ((dm_vols cands).map (fun v => 1 / v)).sum),
    ?_, ?_, ?_, ?_⟩
  · simp only [dm_weights, h1, Bool.false_eq_true, if_false]
    rw [if_neg htot.ne']
  · rw [sum_map_div]
    exact div_self htot.ne'
  · intro w hw
    obtain ⟨iv, hiv, rfl⟩ := List.mem_map.mp hw
    exact div_nonneg (hinv iv hiv).le htot.le
  · simp [dm_vols]

/-- C5 (counterexample to the claim as stated): an eligible candidate whose
volatility field is the number `0.0` (not the `"-"` sentinel) sends
`1 / volatility` into a ZeroDivisionError, so the weight computation does
divide by zero and no weights are produced. -/
theorem inv_vol_divzero_cex :
    dm_eligible [⟨"X", "X", 10, some 0, 1, true⟩] =
      [⟨"X", "X", 10, some 0, 1, true⟩]
    ∧ dm_weights [⟨"X", "X", 10, some 0, 1, true⟩] = none
    ∧ get_allocation [⟨"X", "X", 10, some 0, 1, true⟩] 100 = none := by
  refine ⟨?_, ?_, ?_⟩
  · norm_num [dm_eligible]
  · norm_num [dm_weights, dm_vols]
  · norm_num [get_allocation, dm_eligible, dm_weights, dm_vols]

/-- C5 (amended): for every non-empty eligible candidate list whose
volatility values (after substituting the neutral 20 for a missing `"-"`)
are all positive — as annualized volatilities are — the inverse-volatility
weights exist (no division by zero) and sum to exactly 1, one weight per
candidate; a candidate with the numeric volatility `0.0` instead aborts the
allocation with a division by zero. -/
theorem inv_vol_weights_sum_one (results : List DMCand)
    (hne : dm_eligible results ≠ [])
    (hv : ∀ v ∈ dm_vols (dm_eligible results), 0 < v) :
    (∃ ws, dm_weights (dm_eligible results) = some ws ∧ ws.sum = 1
      ∧ ws.length = (dm_eligible results).length)
    ∧ (∀ (i : Nat) (c : DMCand), (dm_eligible results)[i]? = some c →
        c.vol = none → (dm_vols (dm_eligible results))[i]? = some 20) := by
  constructor
  · obtain ⟨ws, w1, w2, -, w4⟩ := dm_weights_spec _ hne hv
    exact ⟨ws, w1, w2, w4⟩
  · intro i c hc hnone
    simp [dm_vols, hc, hnone]

/-- Witness for `inv_vol_weights_sum_one`: a single eligible candidate with
volatility 10 gets the full weight, `[1]`, summing to 1. -/
theorem inv_vol_weights_sum_one_witness :
    ∃ ws, dm_weights (dm_eligible [⟨"X", "X", 10, some 10, 1, true⟩]) =
        some ws
      ∧ ws.sum = 1
      ∧ ws.length = (dm_eligible [⟨"X", "X", 10, some 10, 1, true⟩]).length :=
  (inv_vol_weights_sum_one [⟨"X", "X", 10, some 10, 1, true⟩]
    (by norm_num [dm_eligible])
    (by norm_num [dm_eligible, dm_vols])).1

theorem viRow_price_guard (cash : ℚ) (c : VICand) (w : ℚ)
    (hp : c.price ≤ 0) : (viRow cash c w).shares = 0 := by
  have hng : ¬ (0 < ((c.price : ℤ) : ℚ) ∧ ((c.price : ℤ) : ℚ) ≤ cash * w) := by
    rintro ⟨h1, -⟩
    have h2 : ((c.price : ℤ) : ℚ) ≤ 0 := by exact_mod_cast hp
    linarith
  simp only [viRow]
  rw [if_neg hng]

theorem viRow_spent_le (cash : ℚ) (c : VICand) (w : ℚ) (hc : 0 < cash)
    (hw : 0 ≤ w) :
    (((viRow cash c w).shares * c.price : ℤ) : ℚ) ≤ cash * w := by
  by_cases h : 0 < ((c.price : ℤ) : ℚ) ∧ ((c.price : ℤ) : ℚ) ≤ cash * w
  · have hp := h.1
    simp only [viRow]
    rw [if_pos h]
    push_cast
    calc (⌊cash * w / ((c.price : ℤ) : ℚ)⌋ : ℚ) * ((c.price : ℤ) : ℚ)
        ≤ cash * w / ((c.price : ℤ) : ℚ) * ((c.price : ℤ) : ℚ) :=
          mul_le_mul_of_nonneg_right (Int.floor_le _) hp.le
      _ = cash * w := div_mul_cancel₀ _ hp.ne'
  · simp only [viRow]
    rw [if_neg h]
    simpa using mul_nonneg hc.le hw

theorem vi_spent_le_aux (cash : ℚ) (hc : 0 < cash) :
    ∀ (cs : List VICand) (ws : List ℚ), (∀ w ∈ ws, 0 ≤ w) →
      (List.zipWith (fun (a : VIAlloc) (c : VICand) =>
          ((a.shares * c.price : ℤ) : ℚ))
        (List.zipWith (viRow cash) cs ws) cs).sum ≤ cash * ws.sum := by
  intro cs
  induction cs with
  | nil =>
    intro ws hws
    simpa using mul_nonneg hc.le (List.sum_nonneg hws)
  | cons c cs ih =>
    intro ws hws
    cases ws with
    | nil => simp
    | cons w ws2 =>
      simp only [List.zipWith_cons_cons, List.sum_cons]
      have h1 := viRow_spent_le cash c w hc (hws w (List.mem_cons_self _ _))
      have h2 := ih ws2 (fun x hx => hws x (List.mem_cons_of_mem _ hx))
      calc (((viRow cash c w).shares * c.price : ℤ) : ℚ) +
            (List.zipWith (fun (a : VIAlloc) (c2 : VICand) =>
                ((a.shares * c2.price : ℤ) : ℚ))
              (List.zipWith (viRow cash) cs ws2) cs).sum
          ≤ cash * w + cash * ws2.sum := add_le_add h1 h2
        _ = cash * (w + ws2.sum) := by ring

theorem vi_raw_weights_nonneg (cands : List VICand)
    (h : ∀ c ∈ cands, 0 ≤ c.score) : ∀ w ∈ vi_raw_weights cands, 0 ≤ w := by
  intro w hw
  simp only [vi_raw_weights] at hw
  by_cases ht : (cands.map (fun c => c.score)).sum = 0
  · rw [if_pos ht] at hw
    rw [List.eq_of_mem_replicate hw]
    positivity
  · rw [if_neg ht] at hw
    obtain ⟨c, hc, rfl⟩ := List.mem_map.mp hw
    have htpos : 0 < (cands.map (fun c => c.score)).sum :=
      lt_of_le_of_ne (List.sum_nonneg (by
        intro x hx
        obtain ⟨c2, hc2, rfl⟩ := List.mem_map.mp hx
        exact h c2 hc2)) (Ne.symm ht)
    exact div_nonneg (h c hc) htpos.le

theorem vi_capped_weights_nonneg (cands : List VICand)
    (h : ∀ c ∈ cands, 0 ≤ c.score) :
    ∀ w ∈ vi_capped_weights cands, 0 ≤ w := by
  intro w hw
  obtain ⟨w0, hw0, rfl⟩ := List.mem_map.mp hw
  exact le_min (vi_raw_weights_nonneg _ h _ hw0)
    (by norm_num [MAX_WEIGHT_PER_TICKER])

theorem vi_capped_weights_sum_le_one (cands : List VICand)
    (h : ∀ c ∈ cands, 0 ≤ c.score) : (vi_capped_weights cands).sum ≤ 1 := by
  simp only [vi_capped_weights, vi_raw_weights]
  by_cases ht : (cands.map (fun c => c.score)).sum = 0
  · rw [if_pos ht]
    rcases Nat.eq_zero_or_pos cands.length with h0 | hpos
    · rw [h0]
      simp
    · rw [List.map_replicate, List.sum_replicate, nsmul_eq_mul]
      have hcast : (0 : ℚ) < (cands.length : ℚ) := Nat.cast_pos.mpr hpos
      have hx : min (1 / (cands.length : ℚ)) MAX_WEIGHT_PER_TICKER ≤
          1 / (cands.length : ℚ) := min_le_left _ _
      calc (cands.length : ℚ) *
            min (1 / (cands.length : ℚ)) MAX_WEIGHT_PER_TICKER
          ≤ (cands.length : ℚ) * (1 / (cands.length : ℚ)) :=
            mul_le_mul_of_nonneg_left hx hcast.le
        _ = 1 := mul_one_div_cancel hcast.ne'
  · rw [if_neg ht]
    have htpos : 0 < (cands.map (fun c => c.score)).sum :=
      lt_of_le_of_ne (List.sum_nonneg (by
        intro x hx
        obtain ⟨c2, hc2, rfl⟩ := List.mem_map.mp hx
        exact h c2 hc2)) (Ne.symm ht)
    rw [List.map_map]
    have hle : (cands.map ((fun w => min w MAX_WEIGHT_PER_TICKER) ∘
          (fun c => c.score / (cands.map (fun c => c.score)).sum))).sum ≤
        (cands.map (fun c =>
          c.score / (cands.map (fun c => c.score)).sum)).sum :=
      List.sum_le_sum (fun c _ => min_le_left _ _)
    have heq : cands.map (fun c =>
          c.score / (cands.map (fun c => c.score)).sum) =
        (cands.map (fun c => c.score)).map
          (fun x => x / (cands.map (fun c => c.score)).sum) := by
      rw [List.map_map]
      rfl
    calc (cands.map ((fun w => min w MAX_WEIGHT_PER_TICKER) ∘
            (fun c => c.score / (cands.map (fun c => c.score)).sum))).sum
        ≤ (cands.map (fun c =>
            c.score / (cands.map (fun c => c.score)).sum)).sum := hle
      _ = (cands.map (fun c => c.score)).sum /
            (cands.map (fun c => c.score)).sum := by
          rw [heq, sum_map_div]
      _ = 1 := div_self htpos.ne'

theorem dmRow_actual_le (cash : Int) (r : DMCand) (w : ℚ)
    (hp : 0 < r.price) :
    (dmRow cash r w).actual_cash ≤ (dmRow cash r w).alloc_cash := by
  show (pyIntTrunc ((cash : ℚ) * w)).fdiv r.price * r.price ≤
    pyIntTrunc ((cash : ℚ) * w)
  rw [Int.fdiv_eq_ediv _ hp.le]
  exact Int.ediv_mul_le _ hp.ne'

theorem dmRow_actual_le_cash (cash : Int) (hc : 0 ≤ cash) (r : DMCand)
    (w : ℚ) (hp : 0 < r.price) (hw : 0 ≤ w) :
    ((dmRow cash r w).actual_cash : ℚ) ≤ (cash : ℚ) * w := by
  have h1 : (dmRow cash r w).actual_cash ≤ (dmRow cash r w).alloc_cash :=
    dmRow_actual_le cash r w hp
  have h2 : ((dmRow cash r w).alloc_cash : ℚ) ≤ (cash : ℚ) * w := by
    show ((pyIntTrunc ((cash : ℚ) * w) : ℤ) : ℚ) ≤ (cash : ℚ) * w
    exact pyIntTrunc_le _ (mul_nonneg (by exact_mod_cast hc) hw)
  calc ((dmRow cash r w).actual_cash : ℚ)
      ≤ ((dmRow cash r w).alloc_cash : ℚ) := by exact_mod_cast h1
    _ ≤ (cash : ℚ) * w := h2

theorem int_cast_sum_actual (l : List DMAlloc) :
    (((l.map (fun a => a.actual_cash)).sum : ℤ) : ℚ) =
      (l.map (fun a => (a.actual_cash : ℚ))).sum := by
  induction l with
  | nil => simp
  | cons a l ih =>
    simp only [List.map_cons, List.sum_cons, Int.cast_add]
    rw [ih]

theorem dm_spent_le_aux (cash : Int) (hc : 0 ≤ cash) :
    ∀ (cs : List DMCand) (ws : List ℚ), (∀ r ∈ cs, 0 < r.price) →
      (∀ w ∈ ws, 0 ≤ w) →
      ((List.zipWith (dmRow cash) cs ws).map
          (fun a => (a.actual_cash : ℚ))).sum ≤ (cash : ℚ) * ws.sum := by
  intro cs
  induction cs with
  | nil =>
    intro ws h1 h2
    simpa using mul_nonneg (show (0 : ℚ) ≤ (cash : ℚ) by exact_mod_cast hc)
      (List.sum_nonneg h2)
  | cons c cs ih =>
    intro ws h1 h2
    cases ws with
    | nil => simp
    | cons w ws2 =>
      simp only [List.zipWith_cons_cons, List.map_cons, List.sum_cons]
      have ha := dmRow_actual_le_cash cash hc c w
        (h1 c (List.mem_cons_self _ _)) (h2 w (List.mem_cons_self _ _))
      have hb := ih ws2 (fun r hr => h1 r (List.mem_cons_of_mem _ hr))
        (fun x hx => h2 x (List.mem_cons_of_mem _ hx))
      calc ((dmRow cash c w).actual_cash : ℚ) +
            ((List.zipWith (dmRow cash) cs ws2).map
              (fun a => (a.actual_cash : ℚ))).sum
          ≤ (cash : ℚ) * w + (cash : ℚ) * ws2.sum := add_le_add ha hb
        _ = (cash : ℚ) * (w + ws2.sum) := by ring

/-- C4 (counterexample to the claim as stated): Dual-Momentum's allocator
has no guard on non-positive prices — an eligible candidate priced `-3`
receives `-34` shares (not 0) and its realized `shares × price = 102`
exceeds the allocated 100; a zero price raises a ZeroDivisionError
(`inv_vol_divzero_cex` shows the allocator aborting on another input). -/
theorem dm_price_guard_cex :
    get_allocation [⟨"X", "X", -3, some 10, 1, true⟩] 100 =
      some [{ cand := ⟨"X", "X", -3, some 10, 1, true⟩, weight := 1,
              alloc_cash := 100, shares := -34, actual_cash := 102 }]
    ∧ ¬ ((-34 : Int) = 0) ∧ ¬ ((102 : Int) ≤ 100) := by
  have hf : (100 : Int).fdiv (-3) = -34 := by decide
  refine ⟨?_, by decide, by decide⟩
  norm_num [get_allocation, dm_eligible, dm_weights, dm_vols, dmRow,
    pyIntTrunc, hf]

/-- C4 (amended): the Value-Investing allocator satisfies the claim in full
(zero shares on a non-positive price, and — for non-negative scores and a
non-negative budget — per-candidate and total spending within the allocated
and available cash); the Dual-Momentum allocator satisfies the per-candidate
and total bounds only when every eligible candidate has a positive price
(and positive substituted volatility), its loop having no guard against
non-positive prices. -/
theorem allocation_no_overspend :
    (∀ (cands : List VICand) (cash : ℚ) (i : Nat) (a : VIAlloc) (c : VICand),
        (vi_get_allocations cands cash)[i]? = some a → cands[i]? = some c →
        (c.price ≤ 0 → a.shares = 0)
        ∧ (∀ w, (vi_capped_weights cands)[i]? = some w →
            (∀ c2 ∈ cands, 0 ≤ c2.score) →
            ((a.shares * c.price : ℤ) : ℚ) ≤ cash * w))
    ∧ (∀ (cands : List VICand) (cash : ℚ),
        (∀ c ∈ cands, 0 ≤ c.score) → 0 ≤ cash →
        (List.zipWith (fun (a : VIAlloc) (c : VICand) =>
            ((a.shares * c.price : ℤ) : ℚ))
          (vi_get_allocations cands cash) cands).sum ≤ cash)
    ∧ (∀ (results : List DMCand) (cash : Int) (allocs : List DMAlloc),
        get_allocation results cash = some allocs →
        (∀ a ∈ allocs, 0 < a.cand.price → a.actual_cash ≤ a.alloc_cash)
        ∧ ((∀ c ∈ dm_eligible results, 0 < c.price) →
            (∀ v ∈ dm_vols (dm_eligible results), 0 < v) → 0 ≤ cash →
            (allocs.map (fun a => a.actual_cash)).sum ≤ cash)) := by
  refine ⟨?_, ?_, ?_⟩
  · intro cands cash i a c ha hc
    by_cases hguard : (cands.isEmpty || decide (cash ≤ 0)) = true
    · rw [vi_get_allocations, if_pos hguard] at ha
      simp at ha
    · rw [vi_get_allocations, if_neg hguard] at ha
      rw [List.getElem?_zipWith, hc] at ha
      cases hw : (vi_capped_weights cands)[i]? with
      | none => rw [hw] at ha; simp at ha
      | some w0 =>
        rw [hw] at ha
        simp only [Option.some.injEq] at ha
        subst ha
        constructor
        · intro hp
          exact viRow_price_guard cash c w0 hp
        · intro w hw2 hscores
          injection hw2 with hw2
          subst hw2
          have hcash : 0 < cash := by
            simp only [Bool.or_eq_true, decide_eq_true_eq, not_or] at hguard
            exact lt_of_not_le hguard.2
          exact viRow_spent_le cash c w0 hcash
            (vi_capped_weights_nonneg cands hscores w0
              (List.getElem?_mem hw))
  · intro cands cash hs hc
    by_cases hguard : (cands.isEmpty || decide (cash ≤ 0)) = true
    · rw [vi_get_allocations, if_pos hguard]
      simpa using hc
    · rw [vi_get_allocations, if_neg hguard]
      have hcash : 0 < cash := by
        simp only [Bool.or_eq_true, decide_eq_true_eq, not_or] at hguard
        exact lt_of_not_le hguard.2
      have haux := vi_spent_le_aux cash hcash cands (vi_capped_weights cands)
        (vi_capped_weights_nonneg cands hs)
      have hone := vi_capped_weights_sum_le_one cands hs
      calc (List.zipWith (fun (a : VIAlloc) (c : VICand) =>
              ((a.shares * c.price : ℤ) : ℚ))
            (List.zipWith (viRow cash) cands (vi_capped_weights cands))
            cands).sum
          ≤ cash * (vi_capped_weights cands).sum := haux
        _ ≤ cash * 1 := mul_le_mul_of_nonneg_left hone hcash.le
        _ = cash := mul_one cash
  · intro results cash allocs hal
    by_cases hemp : (dm_eligible results).isEmpty = true
    · rw [get_allocation, if_pos hemp, Option.some.injEq] at hal
      subst hal
      constructor
      · intro a ha
        simp at ha
      · intro _ _ hc0
        simpa using hc0
    · rw [get_allocation, if_neg hemp] at hal
      cases hws : dm_weights (dm_eligible results) with
      | none => rw [hws] at hal; cases hal
      | some ws =>
        rw [hws] at hal
        have hal2 : (if ((dm_eligible results).any
              (fun r => decide (r.price = 0))) = true then none
            else some (List.zipWith (dmRow cash)
              (dm_eligible results) ws)) = some allocs := hal
        by_cases hzero : ((dm_eligible results).any
            (fun r => decide (r.price = 0))) = true
        · rw [if_pos hzero] at hal2
          cases hal2
        · rw [if_neg hzero, Option.some.injEq] at hal2
          subst hal2
          constructor
          · intro a ha hp
            obtain ⟨r, -, w, -, rfl⟩ := exists_of_mem_zipWith ha
            exact dmRow_actual_le cash r w (by simpa [dmRow] using hp)
          · intro hprices hv hc
            have hne : dm_eligible results ≠ [] := by
              simpa [List.isEmpty_iff] using hemp
            obtain ⟨ws2, hws2, hsum, hnn, -⟩ := dm_weights_spec _ hne hv
            rw [hws, Option.some.injEq] at hws2
            subst hws2
            have haux := dm_spent_le_aux cash hc (dm_eligible results) ws
              hprices hnn
            rw [hsum, mul_one] at haux
            have hq : ((((List.zipWith (dmRow cash) (dm_eligible results)
                ws).map (fun a => a.actual_cash)).sum : ℤ) : ℚ) ≤
                (cash : ℚ) := by
              rw [int_cast_sum_actual]
              exact haux
            exact_mod_cast hq

/-- Witness for `allocation_no_overspend`: the three-candidate
Value-Investing scenario (scores 6/3/1, price 100, budget 25,000,000) spends
at most the budget in total. -/
theorem allocation_no_overspend_witness :
    (List.zipWith (fun (a : VIAlloc) (c : VICand) =>
        ((a.shares * c.price : ℤ) : ℚ))
      (vi_get_allocations
        [⟨"A", "A", 100, 6⟩, ⟨"B", "B", 100, 3⟩, ⟨"C", "C", 100, 1⟩]
        25000000)
      [⟨"A", "A", 100, 6⟩, ⟨"B", "B", 100, 3⟩, ⟨"C", "C", 100, 1⟩]).sum ≤
      25000000 :=
  allocation_no_overspend.2.1
    [⟨"A", "A", 100, 6⟩, ⟨"B", "B", 100, 3⟩, ⟨"C", "C", 100, 1⟩] 25000000
    (by norm_num) (by norm_num)

/-- C7: in the Value-Investing allocation the weight used for candidate `i`
is exactly `min(raw_i, 0.40)` with `raw_i = score/Σscore` (or `1/n` when the
total score is 0); it never exceeds the cap, the allocation row is built from
this clipped weight as-is (no renormalization), and the realized weight
percentage recorded in the row also never exceeds 40. -/
theorem vi_weight_cap (cands : List VICand) (cash : ℚ) (i : Nat)
    (c : VICand) (hc : cands[i]? = some c) (hne : cands.isEmpty = false)
    (hcash : 0 < cash) :
    ∃ w, (vi_capped_weights cands)[i]? = some w
      ∧ w = min (if (cands.map (fun c2 => c2.score)).sum = 0
            then 1 / (cands.length : ℚ)
            else c.score / (cands.map (fun c2 => c2.score)).sum)
          MAX_WEIGHT_PER_TICKER
      ∧ w ≤ MAX_WEIGHT_PER_TICKER
      ∧ (vi_get_allocations cands cash)[i]? = some (viRow cash c w)
      ∧ (viRow cash c w).weight_pct ≤ 40 := by
  have hi : i < cands.length := (List.getElem?_eq_some.mp hc).1
  have hraw : (vi_raw_weights cands)[i]? =
      some (if (cands.map (fun c2 => c2.score)).sum = 0
        then 1 / (cands.length : ℚ)
        else c.score / (cands.map (fun c2 => c2.score)).sum) := by
    simp only [vi_raw_weights]
    by_cases ht : (cands.map (fun c2 => c2.score)).sum = 0
    · rw [if_pos ht, if_pos ht, List.getElem?_replicate, if_pos hi]
    · rw [if_neg ht, if_neg ht, List.getElem?_map, hc]
      rfl
  have hcap : (vi_capped_weights cands)[i]? =
      some (min (if (cands.map (fun c2 => c2.score)).sum = 0
        then 1 / (cands.length : ℚ)
        else c.score / (cands.map (fun c2 => c2.score)).sum)
        MAX_WEIGHT_PER_TICKER) := by
    simp only [vi_capped_weights]
    rw [List.getElem?_map, hraw]
    rfl
  refine ⟨_, hcap, rfl, min_le_right _ _, ?_, ?_⟩
  · have hguard : ¬ ((cands.isEmpty || decide (cash ≤ 0)) = true) := by
      simp [hne, not_le.mpr hcash]
    rw [vi_get_allocations, if_neg hguard, List.getElem?_zipWith, hc, hcap]
  · set w := min (if (cands.map (fun c2 => c2.score)).sum = 0
        then 1 / (cands.length : ℚ)
        else c.score / (cands.map (fun c2 => c2.score)).sum)
        MAX_WEIGHT_PER_TICKER with hwdef
    have hwle : w ≤ 2 / 5 := min_le_right _ _
    simp only [viRow]
    rw [if_pos hcash]
    by_cases hcond : 0 < ((c.price : ℤ) : ℚ) ∧
        ((c.price : ℤ) : ℚ) ≤ cash * w
    · rw [if_pos hcond]
      have hact : (⌊cash * w / ((c.price : ℤ) : ℚ)⌋ : ℚ) *
          ((c.price : ℤ) : ℚ) ≤ cash * w :=
        calc (⌊cash * w / ((c.price : ℤ) : ℚ)⌋ : ℚ) * ((c.price : ℤ) : ℚ)
            ≤ cash * w / ((c.price : ℤ) : ℚ) * ((c.price : ℤ) : ℚ) :=
              mul_le_mul_of_nonneg_right (Int.floor_le _) hcond.1.le
          _ = cash * w := div_mul_cancel₀ _ hcond.1.ne'
      have hw25 : cash * w ≤ cash * (2 / 5) :=
        mul_le_mul_of_nonneg_left hwle hcash.le
      rw [div_mul_eq_mul_div, div_le_iff₀ hcash]
      nlinarith
    · rw [if_neg hcond]
      norm_num

/-- Witness for `vi_weight_cap`: the top-score candidate of the 6/3/1
scenario has raw weight 0.6, capped to exactly 0.40. -/
theorem vi_weight_cap_witness :
    ∃ w, (vi_capped_weights
        [⟨"A", "A", 100, 6⟩, ⟨"B", "B", 100, 3⟩, ⟨"C", "C", 100, 1⟩])[0]? =
        some w
      ∧ w = min (if (([⟨"A", "A", 100, 6⟩, ⟨"B", "B", 100, 3⟩,
              ⟨"C", "C", 100, 1⟩] : List VICand).map
            (fun c2 => c2.score)).sum = 0
          then 1 / ((([⟨"A", "A", 100, 6⟩, ⟨"B", "B", 100, 3⟩,
              ⟨"C", "C", 100, 1⟩] : List VICand)).length : ℚ)
          else (6 : ℚ) / (([⟨"A", "A", 100, 6⟩, ⟨"B", "B", 100, 3⟩,
              ⟨"C", "C", 100, 1⟩] : List VICand).map
            (fun c2 => c2.score)).sum) MAX_WEIGHT_PER_TICKER
      ∧ w ≤ MAX_WEIGHT_PER_TICKER
      ∧ (vi_get_allocations [⟨"A", "A", 100, 6⟩, ⟨"B", "B", 100, 3⟩,
            ⟨"C", "C", 100, 1⟩] 25000000)[0]? =
        some (viRow 25000000 ⟨"A", "A", 100, 6⟩ w)
      ∧ (viRow 25000000 ⟨"A", "A", 100, 6⟩ w).weight_pct ≤ 40 :=
  vi_weight_cap [⟨"A", "A", 100, 6⟩, ⟨"B", "B", 100, 3⟩, ⟨"C", "C", 100, 1⟩]
    25000000 0 ⟨"A", "A", 100, 6⟩ rfl rfl (by norm_num)

/-! Comparison report and ranking (claim C2) -/

theorem filter_orderedInsert_ret (q : ℚ) (a : Summary) (l : List Summary) :
    List.filter (fun s => decide (s.return_pct = q))
        (List.orderedInsert summaryGE a l) =
      if a.return_pct = q
      then a :: List.filter (fun s => decide (s.return_pct = q)) l
      else List.filter (fun s => decide (s.return_pct = q)) l := by
  induction l with
  | nil =>
    simp only [List.orderedInsert]
    by_cases hpa : a.return_pct = q
    · simp [List.filter, hpa]
    · simp [List.filter, hpa]
  | cons b l ih =>
    simp only [List.orderedInsert]
    by_cases hr : summaryGE a b
    · rw [if_pos hr]
      by_cases hpa : a.return_pct = q <;>
        simp [List.filter_cons, hpa]
    · rw [if_neg hr]
      have hlt : a.return_pct < b.return_pct := by
        simpa [summaryGE] using hr
      by_cases hpa : a.return_pct = q
      · have hpb : ¬ b.return_pct = q := by
          rw [← hpa]
          exact fun hh => absurd hh (ne_of_gt hlt)
        simp [List.filter_cons, hpa, hpb, ih]
      · by_cases hpb : b.return_pct = q <;>
          simp [List.filter_cons, hpa, hpb, ih]

/-- C2 (counterexample to the claim as stated): a strategy with seed 100,
cash 50, and one share bought at 50 now quoted at 60 reports a return of
20% — `profit / cost_basis × 100` — while the claimed formula
`(evalValue + cash − seed)/seed × 100` gives 10%. -/
theorem return_formula_cex :
    strat_return_pct (fun t => if t = "A" then some 60 else none)
        ⟨50, 100, [("A", ⟨1, 50, "A"⟩)]⟩ = 20
    ∧ strat_eval (fun t => if t = "A" then some 60 else none)
        ⟨50, 100, [("A", ⟨1, 50, "A"⟩)]⟩ = 60
    ∧ (((60 : ℚ) + 50 - 100) / 100 * 100 = 10)
    ∧ (20 : ℚ) ≠ 10 := by
  refine ⟨?_, ?_, by norm_num, by norm_num⟩
  · norm_num [strat_return_pct, strat_cost, strat_eval, reportPrice, round2,
      round_eq]
  · norm_num [strat_eval, reportPrice]

/-- C2 (amended): the end-of-day ranking is a permutation of the per-strategy
summaries, sorted by the stored `return_pct` in descending order, and for
every return value the summaries carrying it appear in their original
declaration order (stable ties); each summary's `return_pct` is
`(eval − cost)/cost × 100` over the open holdings (0 with no open cost
basis), rounded to two decimals — not `(eval + cash − seed)/seed × 100`. -/
theorem comparison_ranking (l : List Summary) :
    (rankSummaries l).Perm l
    ∧ List.Sorted summaryGE (rankSummaries l)
    ∧ (∀ q : ℚ, (rankSummaries l).filter (fun s => decide (s.return_pct = q))
        = l.filter (fun s => decide (s.return_pct = q)))
    ∧ (∀ (px : String → Option Int) (s : StratState),
        strat_return_pct px s = if 0 < strat_cost s then
          round2 ((((strat_eval px s - strat_cost s) : ℤ) : ℚ) /
            ((strat_cost s : ℤ) : ℚ) * 100) else 0) := by
  refine ⟨List.perm_insertionSort summaryGE l,
    List.sorted_insertionSort summaryGE l, ?_, fun px s => rfl⟩
  intro q
  unfold rankSummaries
  induction l with
  | nil => rfl
  | cons a l ih =>
    rw [List.insertionSort, filter_orderedInsert_ret, List.filter_cons]
    by_cases hpa : a.return_pct = q <;> simp [hpa, ih]

end KisJournal
